import Mathlib

/-!
Shallow embedding of the hierarchical configuration engine in
src/hierarchiconf/__init__.py (the Conf class and its helper functions),
together with proofs settling the specification claims about it.

Conventions of the embedding:
* Python strings are Lean String; segment lists are List String.
* Python exceptions become an explicit error type Err; a function that can
  raise returns Except Err.
* The regular-expression primitive re.match(pat, s) with the additional
  check is_match.end() == len(s) (a full anchored match) is embedded for
  the regex sublanguage actually used in selector segments: literal
  characters, the any-character dot, and a star quantifier on the
  preceding single character.  Plain identifier segments and the patterns
  exercised by the repository's own tests (such as dot-star) live in this
  sublanguage.
* Specificities are pairs of naturals compared lexicographically, exactly
  as Python compares the two-element lists built by the mutable-list
  increments in the source.
-/

namespace Hierarchiconf

/-! ## Regex primitive: full anchored match of a segment pattern -/

/-- One pattern character against one subject character: the dot matches
any character, every other character matches only itself. -/
def matchChar (c x : Char) : Bool :=
  c = '.' || c = x

/-- Fueled worker for the full anchored regex match.  The fuel is a
structural-recursion device only: every recursive call decreases the
combined length of pattern and subject, so the wrapper's fuel of
combined length + 1 is never exhausted. -/
def reFullAux : Nat → List Char → List Char → Bool
  | 0, _, _ => false
  | _ + 1, [], s => s.isEmpty
  | f + 1, c :: ps, s =>
    match ps with
    | p2 :: ps2 =>
      if p2 = '*' then
        reFullAux f ps2 s ||
          (match s with
           | [] => false
           | x :: xs => matchChar c x && reFullAux f (c :: p2 :: ps2) xs)
      else
        match s with
        | [] => false
        | x :: xs => matchChar c x && reFullAux f (p2 :: ps2) xs
    | [] =>
      match s with
      | [] => false
      | x :: xs => matchChar c x && reFullAux f [] xs

/-- Full anchored regex match of pattern p against subject s: embeds
re.match(p, s) combined with the source's is_match.end() == len(s) test. -/
def reFull (p s : List Char) : Bool :=
  reFullAux (p.length + s.length + 1) p s

/-- A selector segment fully matches a path segment (the source's
re.match(selector_head, path_head) with end-of-string check). -/
def segFullMatch (pat seg : String) : Bool :=
  reFull pat.data seg.data

/-! ## PathGrammar: splitting, joining, validation -/

/-- Worker for splitting a string on the slash character, keeping empty
pieces, exactly like the Python str.split of a single character. -/
def splitSlashAux : List Char → List Char → List String
  | acc, [] => [String.mk acc.reverse]
  | acc, c :: r =>
    if c = '/' then String.mk acc.reverse :: splitSlashAux [] r
    else splitSlashAux (c :: acc) r

/-- Split a string on every slash, keeping empty pieces
(str.split of the slash character). -/
def splitSlash (s : String) : List String :=
  splitSlashAux [] s.data

/-- Join strings with single slashes (the slash str.join). -/
def joinSlash : List String → String
  | [] => ""
  | [s] => s
  | s :: r => s ++ "/" ++ joinSlash r

/-- Worker collapsing every run of two or more slashes to exactly two;
the counter records how many consecutive slashes directly precede the
current position. -/
def collapseGo : Nat → List Char → List Char
  | _, [] => []
  | k, c :: r =>
    if c = '/' then
      if k ≥ 2 then collapseGo k r else '/' :: collapseGo (k + 1) r
    else c :: collapseGo 0 r

/-- Embeds re.sub of two-or-more slashes by a double slash: every maximal
run of at least two slashes becomes exactly two. -/
def collapseSlashes (s : String) : String :=
  String.mk (collapseGo 0 s.data)

/-- Embeds the source's _selector_path_join_valid: join the parts with
slashes, then collapse any accidental longer slash run to a double slash. -/
def joinValid (parts : List String) : String :=
  collapseSlashes (joinSlash parts)

/-- Worker for _split_to_parts_valid: nonempty pieces are kept; an empty
piece stands for a slash run and contributes one wildcard marker unless
the previous kept part is already the wildcard.  The accumulator is kept
reversed.  The Python sentinel empty-string head of its accumulator is
never equal to the wildcard, which the empty initial accumulator models. -/
def wildAccum : List String → List String → List String
  | acc, [] => acc.reverse
  | acc, p :: rest =>
    if p ≠ "" then wildAccum (p :: acc) rest
    else if acc.head? = some "//" then wildAccum acc rest
    else wildAccum ("//" :: acc) rest

/-- Embeds _split_to_parts_valid: split every piece on slashes and turn
runs of empty pieces into single wildcard segments. -/
def splitToPartsValid (ps : List String) : List String :=
  wildAccum [] (ps.flatMap splitSlash)

/-- Embeds re.match of the start-anchored pattern slash-then-nonslash:
true exactly when the string begins with a single slash followed by a
second character that is not a slash. -/
def startsSingleSlash (s : String) : Bool :=
  match s.data with
  | a :: b :: _ => a = '/' && b ≠ '/'
  | _ => false

/-- Embeds re.match (not re.search) of the pattern nonslash-slash-end:
because re.match anchors at the start of the string, this matches only
strings of exactly two characters whose first is not a slash and whose
second is a slash. -/
def lastSingleSlashRe (s : String) : Bool :=
  match s.data with
  | [a, b] => a ≠ '/' && b = '/'
  | _ => false

/-- True when the character list contains three consecutive slashes
(str.find of a triple slash returning a nonnegative index). -/
def hasTripleSlash : List Char → Bool
  | a :: b :: c :: r => (a = '/' && b = '/' && c = '/') || hasTripleSlash (b :: c :: r)
  | _ => false

/-- Embeds check_valid_selectors on a list of selector parts: the result
is true when the source returns True, false when it raises.  The four
checks are, in source order: emptiness, the start-anchored
first-single-slash regex, the start-anchored last-single-slash regex
(which, anchored by re.match, only rejects two-character parts), and the
triple-slash substring search. -/
def checkValidSelectors (parts : List String) : Bool :=
  parts.all fun sp =>
    sp ≠ "" && !startsSingleSlash sp && !lastSingleSlashRe sp &&
      !hasTripleSlash sp.data

/-- First character of a Python identifier (the regex class of word
characters that are not digits, under the default ASCII semantics of the
Python 2 re module). -/
def isIdentFirst (c : Char) : Bool :=
  ('a' ≤ c && c ≤ 'z') || ('A' ≤ c && c ≤ 'Z') || c = '_'

/-- Subsequent character of a Python identifier (a word character). -/
def isIdentRest (c : Char) : Bool :=
  isIdentFirst c || ('0' ≤ c && c ≤ '9')

/-- A nonempty identifier: word-start character then word characters. -/
def isIdent (s : String) : Bool :=
  match s.data with
  | [] => false
  | c :: r => isIdentFirst c && r.all isIdentRest

/-- Embeds the full anchored __valid_path regex: identifiers separated by
single slashes.  Splitting on slashes and requiring every piece to be an
identifier is equivalent: empty pieces arise exactly from leading,
trailing or doubled slashes, all of which the regex rejects. -/
def isValidPathPart (s : String) : Bool :=
  (splitSlash s).all isIdent

/-- Embeds check_valid_paths: true when the source returns True, false
when it raises (on an empty part or a part failing the path regex). -/
def checkValidPaths (parts : List String) : Bool :=
  parts.all fun pp => pp ≠ "" && isValidPathPart pp

/-! ## Matcher -/

/-- Result of the internal _match function: a plain specificity in
non-prefix mode, or the unconsumed selector suffix with the specificity
in prefix mode. -/
inductive MatchRes where
  | spec : Nat × Nat → MatchRes
  | rem : List String → Nat × Nat → MatchRes
  deriving DecidableEq, Repr

/-- First index whose path segment is fully matched by the pattern:
embeds the source's loop over skipped levels in the wildcard branch. -/
def findSkip (pat : String) : List String → Option Nat
  | [] => none
  | x :: xs => if segFullMatch pat x then some 0 else (findSkip pat xs).map (· + 1)

/-- Embeds the internal _match function.  Arguments: selector parts, path
parts, accumulated specificity, prefix-mode flag.  In the wildcard branch
the source asserts a nonempty selector tail; the assertion failure is
modelled as a failed match (it is unreachable for selectors stored by
the Conf class, which never end in a wildcard).  The source's truthiness
test on the returned specificity is equivalent to an is-not-None test at
every reachable call site, because a successful non-prefix match of a
nonempty path always increments at least one counter and returns a
(truthy) Python list. -/
def matchRec (selParts pathParts : List String) (spec : Nat × Nat) (pm : Bool) :
    Option MatchRes :=
  match selParts, pathParts with
  | sel, [] =>
    if pm then some (.rem sel spec)
    else if sel.isEmpty then some (.spec spec) else none
  | [], _ :: _ => none
  | selHead :: selTail, pathHead :: pathTail =>
    if selHead = "//" then
      match selTail with
      | [] => none
      | tailHead :: _ =>
        match findSkip tailHead (pathHead :: pathTail) with
        | some k => matchRec selTail ((pathHead :: pathTail).drop k) spec pm
        | none => if pm then some (.rem (selHead :: selTail) spec) else none
    else
      if segFullMatch selHead pathHead then
        matchRec selTail pathTail
          (if selHead = pathHead then (spec.1 + 1, spec.2) else (spec.1, spec.2 + 1)) pm
      else none

/-- Embeds the Conf._match static method: split the selector string into
parts and run the internal matcher.  The check_valid_selectors call the
source makes here iterates over the characters of the selector string
(each a one-character part that passes all four checks), so it never
raises and is omitted. -/
def matchSel (selector : String) (pathParts : List String) (spec : Nat × Nat)
    (pm : Bool) : Option MatchRes :=
  matchRec (splitToPartsValid [selector]) pathParts spec pm

/-- Strict lexicographic comparison of specificities: exactly the Python
comparison of the two-element specificity lists. -/
def specGT (a b : Nat × Nat) : Bool :=
  decide (b.1 < a.1) || (decide (a.1 = b.1) && decide (b.2 < a.2))

/-- The top-specificity fold of resolveMatches, over plain specificities. -/
def topSpec (init : Nat × Nat) (l : List (Nat × Nat)) : Nat × Nat :=
  l.foldl (fun a x => if specGT x a then x else a) init

/-- No two adjacent slashes anywhere in the character list. -/
def noDS : List Char → Bool
  | [] => true
  | [_] => true
  | a :: b :: r => !(a = '/' && b = '/') && noDS (b :: r)

/-! ## ConfigStore and ConfigView -/

/-- Stored payloads.  Scalars and strings are opaque to the engine; the
conf constructor is a nested configuration (its flat selector-to-value
dictionary together with its location parts), which the set operation
splices instead of storing. -/
inductive Value where
  | base : Nat → Value
  | str : String → Value
  | conf : List (String × Value) → List String → Value
  deriving Repr

/-- Errors of the engine, one constructor per Python exception site:
plain Exception from the two validators, KeyError carrying the joined
path, AmbiguousSpecificity carrying the tied selectors and the joined
path, the reserved-selector Exception raised by set, the
wildcard-terminated-selector Exception raised by set, IndexError from
indexing the last element of an empty list, and TypeError from unpacking
a None match result. -/
inductive Err where
  | invalidSelector
  | invalidPath
  | keyNotFound : String → Err
  | ambiguous : List String → String → Err
  | reservedSet
  | wildcardEnd
  | indexError
  | typeError
  deriving DecidableEq, Repr

/-- A configuration view: the shared selector-to-value dictionary and the
location parts.  The dictionary is modelled as an association list in
insertion order with unique keys (a Python dict). -/
structure ConfState where
  store : List (String × Value)
  location : List String
  deriving Repr

/-- Python dict assignment on the association list: replace the value in
place when the key is present, otherwise append the new pair. -/
def storeSet (store : List (String × Value)) (k : String) (v : Value) :
    List (String × Value) :=
  if store.any (·.1 = k) then
    store.map (fun e => if e.1 = k then (k, v) else e)
  else store ++ [(k, v)]

/-- True when the value is not a nested configuration (the source's
isinstance test against the Conf class, negated). -/
def nonConf : Value → Bool
  | .conf _ _ => false
  | _ => true

/-- The str.endswith test for a trailing double slash. -/
def endsWithDoubleSlash (s : String) : Bool :=
  match s.data.reverse with
  | a :: b :: _ => a = '/' && b = '/'
  | _ => false

/-- All successful non-prefix matches of the stored selectors against the
path parts, as (specificity, selector, value) triples in store order:
embeds the match-collection loop of Conf.__getitem__.  A non-prefix call
never returns the remainder form, so that arm is dead.  The source
passes the base specificity (not the stored entry's) to every match. -/
def getMatches (store : List (String × Value)) (pathParts : List String) :
    List ((Nat × Nat) × String × Value) :=
  store.filterMap fun e =>
    match matchSel e.1 pathParts (0, 0) false with
    | some (.spec sp) => some (sp, e.1, e.2)
    | _ => none

/-- Resolution of the collected matches, embedding the tail of
Conf.__getitem__: no match raises KeyError; otherwise the source sorts
the triples in descending order and returns the first value when its
specificity is strictly greater than the second's, raising
AmbiguousSpecificity (listing every selector tied at the top
specificity) otherwise.  Because specificity is the dominant sort key,
that is exactly: return the value of the unique triple attaining the
maximal specificity, and fail with the list of all maximal triples'
selectors when they number two or more.  The single-match early return
of the source is the singleton case.  The source lists the tied
selectors in sorted order, this embedding in store order: the same
selectors in both. -/
def resolveMatches (pathStr : String) :
    List ((Nat × Nat) × String × Value) → Except Err Value
  | [] => .error (.keyNotFound pathStr)
  | m :: rest =>
    let top := rest.foldl (fun a x => if specGT x.1 a then x.1 else a) m.1
    match (m :: rest).filter (fun x => x.1 = top) with
    | [x] => .ok x.2.2
    | tied => .error (.ambiguous (tied.map (fun x => x.2.1)) pathStr)

/-- Store lookup of absolute path parts: collect matches, then resolve. -/
def getAbs (store : List (String × Value)) (pathParts : List String) :
    Except Err Value :=
  resolveMatches (joinValid pathParts) (getMatches store pathParts)

/-- The two computed entries of Conf._special_selectors, evaluated at a
location: name is the last location part (IndexError on the empty
location: the root has no name), location is the joined location. -/
def specialLookup (loc : List String) (key : String) : Except Err Value :=
  if key = "name" then
    match loc.getLast? with
    | some n => .ok (.str n)
    | none => .error .indexError
  else .ok (.str (joinValid loc))

/-- Embeds Conf.subconf: validate location plus name as paths, then share
the store under the extended, re-split location. -/
def subconf (c : ConfState) (name : List String) : Except Err ConfState :=
  if checkValidPaths (c.location ++ name) then
    .ok ⟨c.store, splitToPartsValid (c.location ++ name)⟩
  else .error .invalidPath

/-- Fueled embedding of Conf.__getitem__.  The only recursion in the
source is the reserved-key delegation subconf of all but the last part,
then lookup of the last part; the delegated call's path parts are its
location parts followed by the reserved name, all slash-free, so it
always resolves in its own direct special branch: the recursion depth is
at most two and the fuel-zero guard is unreachable from the wrapper.
Note that subconf prepends the view's location to the
already-location-prefixed parts, doubling it. -/
def getItemF : Nat → ConfState → List String → Except Err Value
  | 0, _, _ => .error .typeError
  | fuel + 1, c, path =>
    if checkValidPaths (c.location ++ path) then
      let pathParts := splitToPartsValid (c.location ++ path)
      match pathParts.getLast? with
      | none => .error .indexError
      | some last =>
        if last = "name" || last = "location" then
          if pathParts.length = 1 + c.location.length then
            specialLookup c.location last
          else
            match subconf c pathParts.dropLast with
            | .ok sub => getItemF fuel sub [last]
            | .error e => .error e
        else
          getAbs c.store pathParts
    else .error .invalidPath

/-- Embeds Conf.__getitem__ for a path given as the tuple of its pieces. -/
def getItem (c : ConfState) (path : List String) : Except Err Value :=
  getItemF 2 c path

/-- Embeds Conf.get: return the lookup result, catching exactly KeyError
(and no other exception) to produce the default. -/
def confGet (c : ConfState) (path : List String) (dflt : Value) :
    Except Err Value :=
  match getItem c path with
  | .error (.keyNotFound _) => .ok dflt
  | r => r

/-- Embeds Conf._iter_location_restricted_entries, fully consumed.  The
source unpacks the pair returned by the prefix-mode match directly; when
the match returns None the unpacking raises TypeError (modelled as the
none result), so the is-not-None guard below the unpacking is dead code
and no entry is ever skipped. -/
def iterEntries : List (String × Value) → List String →
    Option (List (String × Value))
  | [], _ => some []
  | (sel, v) :: rest, loc =>
    match matchSel sel loc (0, 0) true with
    | some (.rem suffix _) =>
      (iterEntries rest loc).map (fun l => (joinValid suffix, v) :: l)
    | _ => none

mutual
/-- Embeds Conf.__setitem__ on a view with the given store and location:
validate location plus selector pieces as selectors, join, reject a
reserved final part, then either store the value (rejecting a selector
that ends in a wildcard) or, for a nested configuration, splice its
location-restricted entries one by one.  Splicing performs no check of
the nested configuration's location.  On an error raised mid-splice the
Python object retains the entries already inserted; the functional
embedding returns only the error. -/
def setItem (store : List (String × Value)) (loc : List String)
    (selPieces : List String) (v : Value) : Except Err (List (String × Value)) :=
  if checkValidSelectors (loc ++ selPieces) then
    let selParts := splitToPartsValid (loc ++ selPieces)
    let s := joinValid selParts
    match selParts.getLast? with
    | none => .error .indexError
    | some last =>
      if last = "name" || last = "location" then .error .reservedSet
      else
        match v with
        | .conf cstore cloc => spliceGo store loc s cloc cstore
        | _ =>
          if endsWithDoubleSlash s then .error .wildcardEnd
          else .ok (storeSet store s v)
  else .error .invalidSelector

/-- The splice loop of Conf.__setitem__ over the nested configuration's
entries: each entry is prefix-matched against the nested location (the
TypeError of the None unpacking in _iter_location_restricted_entries when
that fails), and the surviving suffix is set under the joined selector
followed by the rejoined suffix, threading the store.  The non-prefix
result form is unreachable in prefix mode. -/
def spliceGo (store : List (String × Value)) (loc : List String) (s : String)
    (cloc : List String) (cstore : List (String × Value)) :
    Except Err (List (String × Value)) :=
  match cstore with
  | [] => .ok store
  | (sel, sv) :: rest =>
    match matchSel sel cloc (0, 0) true with
    | some (.rem suffix _) =>
      match setItem store loc [s, joinValid suffix] sv with
      | .ok store2 => spliceGo store2 loc s cloc rest
      | .error e => .error e
    | _ => .error .typeError
end

/-- Embeds Conf.__setitem__ at the view level. -/
def setItemView (c : ConfState) (selPieces : List String) (v : Value) :
    Except Err ConfState :=
  match setItem c.store c.location selPieces v with
  | .ok store2 => .ok ⟨store2, c.location⟩
  | .error e => .error e

/-! ## Lemmas about the specificity order -/

theorem specGT_iff (a b : Nat × Nat) :
    specGT a b = true ↔ (b.1 < a.1 ∨ (a.1 = b.1 ∧ b.2 < a.2)) := by
  simp [specGT]

theorem specGT_false_iff (a b : Nat × Nat) :
    specGT a b = false ↔ ¬(b.1 < a.1 ∨ (a.1 = b.1 ∧ b.2 < a.2)) := by
  rw [← specGT_iff]; cases specGT a b <;> simp

theorem specGT_irrefl (a : Nat × Nat) : specGT a a = false := by
  rw [specGT_false_iff]; omega

theorem specGT_asymm {a b : Nat × Nat} (h : specGT a b = true) :
    specGT b a = false := by
  rw [specGT_iff] at h; rw [specGT_false_iff]; omega

theorem specGT_total {a b : Nat × Nat} (hne : a ≠ b) (h : specGT a b = false) :
    specGT b a = true := by
  rcases a with ⟨a1, a2⟩; rcases b with ⟨b1, b2⟩
  have hne2 : a1 ≠ b1 ∨ a2 ≠ b2 := by
    by_contra hc
    push_neg at hc
    exact hne (by simp [Prod.ext_iff, hc.1, hc.2])
  rw [specGT_false_iff] at h; rw [specGT_iff]
  simp only at h ⊢
  omega

theorem specGT_ne {a b : Nat × Nat} (h : specGT a b = true) : a ≠ b := by
  intro he; rw [he, specGT_irrefl] at h; exact Bool.false_ne_true h

theorem specNGT_trans {a b c : Nat × Nat} (hab : specGT a b = false)
    (hbc : specGT b c = false) : specGT a c = false := by
  rw [specGT_false_iff] at hab hbc ⊢; omega

/-! ## Lemmas about the fold computing the top specificity -/

theorem topSpec_ge_init (init : Nat × Nat) (l : List (Nat × Nat)) :
    specGT init (topSpec init l) = false := by
  induction l generalizing init with
  | nil => exact specGT_irrefl init
  | cons x xs ih =>
    simp only [topSpec, List.foldl_cons]
    by_cases h : specGT x init = true
    · simp only [h, if_true]
      exact specNGT_trans (specGT_asymm h) (ih x)
    · simp only [Bool.not_eq_true] at h
      simp only [h, if_false]
      exact ih init

theorem topSpec_ge_mem (init : Nat × Nat) (l : List (Nat × Nat)) :
    ∀ x ∈ l, specGT x (topSpec init l) = false := by
  induction l generalizing init with
  | nil => intro x hx; cases hx
  | cons y ys ih =>
    intro x hx
    rcases List.mem_cons.mp hx with rfl | hx
    · simp only [topSpec, List.foldl_cons]
      by_cases h : specGT x init = true
      · simpa only [h, if_true] using topSpec_ge_init x ys
      · simp only [Bool.not_eq_true] at h
        simp only [h, if_false]
        exact specNGT_trans h (topSpec_ge_init init ys)
    · simp only [topSpec, List.foldl_cons]
      by_cases h : specGT y init = true
      · simp only [h, if_true]; exact ih y x hx
      · simp only [Bool.not_eq_true] at h
        simp only [h, if_false]; exact ih init x hx

theorem topSpec_mem (init : Nat × Nat) (l : List (Nat × Nat)) :
    topSpec init l = init ∨ topSpec init l ∈ l := by
  induction l generalizing init with
  | nil => exact Or.inl rfl
  | cons y ys ih =>
    simp only [topSpec, List.foldl_cons]
    by_cases h : specGT y init = true
    · simp only [h, if_true]
      rcases ih y with h2 | h2
      · right
        show topSpec y ys ∈ y :: ys
        rw [h2]
        exact List.mem_cons_self y ys
      · exact Or.inr (List.mem_cons_of_mem y h2)
    · simp only [Bool.not_eq_true] at h
      simp only [h, if_false]
      rcases ih init with h2 | h2
      · exact Or.inl h2
      · exact Or.inr (List.mem_cons_of_mem y h2)

/-! ## Resolution lemmas -/

theorem filter_eq_singleton {α : Type} (l : List α) (p : α → Bool) (a : α)
    (hnd : l.Nodup) (ha : a ∈ l) (hpa : p a = true)
    (huniq : ∀ x ∈ l, p x = true → x = a) : l.filter p = [a] := by
  induction l with
  | nil => cases ha
  | cons y ys ih =>
    by_cases hay : a = y
    · subst hay
      rw [List.filter_cons_of_pos hpa]
      have hnil : ys.filter p = [] := by
        rw [List.filter_eq_nil_iff]
        intro x hx hpx
        have hxa := huniq x (List.mem_cons_of_mem a hx) hpx
        subst hxa
        exact absurd hx (List.nodup_cons.mp hnd).1
      rw [hnil]
    · have hpy : p y = false := by
        by_contra hc
        have hya := huniq y (List.mem_cons_self y ys)
          (by revert hc; cases p y <;> simp)
        exact hay hya.symm
      rw [List.filter_cons_of_neg (by simp [hpy])]
      have ha2 : a ∈ ys := by
        rcases List.mem_cons.mp ha with h | h
        · exact absurd h hay
        · exact h
      exact ih (List.nodup_cons.mp hnd).2 ha2
        (fun x hx hpx => huniq x (List.mem_cons_of_mem y hx) hpx)

theorem resolveMatches_cons (pathStr : String)
    (m : (Nat × Nat) × String × Value) (rest : List ((Nat × Nat) × String × Value)) :
    resolveMatches pathStr (m :: rest) =
      (match (m :: rest).filter
          (fun x => x.1 = topSpec m.1 (rest.map (fun x => x.1))) with
       | [x] => .ok x.2.2
       | tied => .error (.ambiguous (tied.map (fun x => x.2.1)) pathStr)) := by
  simp only [resolveMatches, topSpec, List.foldl_map]

/-- The match element attaining a strictly greatest specificity among
distinct selectors is returned by the resolution step. -/
theorem resolveMatches_strict (pathStr : String)
    (ms : List ((Nat × Nat) × String × Value)) (s₀ : Nat × Nat) (sel₀ : String)
    (v₀ : Value)
    (hnd : (ms.map (fun x => x.2.1)).Nodup)
    (hmem : (s₀, sel₀, v₀) ∈ ms)
    (hstr : ∀ x ∈ ms, x.2.1 ≠ sel₀ → specGT s₀ x.1 = true) :
    resolveMatches pathStr ms = .ok v₀ := by
  match ms, hnd, hmem, hstr with
  | m :: rest, hnd, hmem, hstr =>
    rw [resolveMatches_cons]
    have hge : specGT s₀ (topSpec m.1 (rest.map (fun x => x.1))) = false := by
      rcases List.mem_cons.mp hmem with he | hr
      · have hm1 : m.1 = s₀ := by rw [← he]
        rw [← hm1]
        exact topSpec_ge_init _ _
      · exact topSpec_ge_mem _ _ s₀ (List.mem_map.mpr ⟨(s₀, sel₀, v₀), hr, rfl⟩)
    have htopmem : ∃ x ∈ m :: rest, x.1 = topSpec m.1 (rest.map (fun x => x.1)) := by
      rcases topSpec_mem m.1 (rest.map (fun x => x.1)) with h | h
      · exact ⟨m, List.mem_cons_self m rest, h.symm⟩
      · rcases List.mem_map.mp h with ⟨x, hx, hfx⟩
        exact ⟨x, List.mem_cons_of_mem m hx, hfx⟩
    have htopeq : topSpec m.1 (rest.map (fun x => x.1)) = s₀ := by
      rcases htopmem with ⟨x, hx, hfx⟩
      by_cases hsel : x.2.1 = sel₀
      · have hx0 : x = (s₀, sel₀, v₀) := List.inj_on_of_nodup_map hnd hx hmem hsel
        rw [← hfx, hx0]
      · have hgt := hstr x hx hsel
        rw [hfx] at hgt
        rw [hgt] at hge
        exact absurd hge (by simp)
    have hfil : (m :: rest).filter
        (fun x => x.1 = topSpec m.1 (rest.map (fun x => x.1))) = [(s₀, sel₀, v₀)] := by
      apply filter_eq_singleton _ _ _ (List.Nodup.of_map _ hnd) hmem
        (by simp [htopeq])
      intro x hx hpx
      simp only [decide_eq_true_eq] at hpx
      by_cases hsel : x.2.1 = sel₀
      · exact List.inj_on_of_nodup_map hnd hx hmem hsel
      · exfalso
        exact specGT_ne (hstr x hx hsel) (by rw [hpx, htopeq])
    rw [hfil]


/-- When two matches with distinct selectors tie at the greatest
specificity, the resolution step fails with the ambiguity error listing
exactly the selectors of the matches attaining that specificity. -/
theorem resolveMatches_tie (pathStr : String)
    (ms : List ((Nat × Nat) × String × Value)) (s : Nat × Nat)
    (sel₁ sel₂ : String) (v₁ v₂ : Value)
    (h1 : (s, sel₁, v₁) ∈ ms) (h2 : (s, sel₂, v₂) ∈ ms) (hne : sel₁ ≠ sel₂)
    (htop : ∀ x ∈ ms, specGT x.1 s = false) :
    resolveMatches pathStr ms =
      .error (.ambiguous ((ms.filter (fun x => x.1 = s)).map (fun x => x.2.1))
        pathStr) := by
  match ms, h1, h2, htop with
  | m :: rest, h1, h2, htop =>
    rw [resolveMatches_cons]
    have hsge : specGT s (topSpec m.1 (rest.map (fun x => x.1))) = false := by
      rcases List.mem_cons.mp h1 with he | hr
      · have hm1 : m.1 = s := by rw [← he]
        rw [← hm1]
        exact topSpec_ge_init _ _
      · exact topSpec_ge_mem _ _ s (List.mem_map.mpr ⟨(s, sel₁, v₁), hr, rfl⟩)
    have htopmem : ∃ x ∈ m :: rest, x.1 = topSpec m.1 (rest.map (fun x => x.1)) := by
      rcases topSpec_mem m.1 (rest.map (fun x => x.1)) with h | h
      · exact ⟨m, List.mem_cons_self m rest, h.symm⟩
      · rcases List.mem_map.mp h with ⟨x, hx, hfx⟩
        exact ⟨x, List.mem_cons_of_mem m hx, hfx⟩
    have htopeq : topSpec m.1 (rest.map (fun x => x.1)) = s := by
      rcases htopmem with ⟨x, hx, hfx⟩
      by_contra hnes
      have hgts : specGT (topSpec m.1 (rest.map (fun x => x.1))) s = true :=
        specGT_total (fun he => hnes he.symm) hsge
      have hns := htop x hx
      rw [hfx] at hns
      rw [hns] at hgts
      exact Bool.false_ne_true hgts
    rw [htopeq]
    have hm1 : (s, sel₁, v₁) ∈ (m :: rest).filter (fun x => x.1 = s) :=
      List.mem_filter.mpr ⟨h1, by simp⟩
    have hm2 : (s, sel₂, v₂) ∈ (m :: rest).filter (fun x => x.1 = s) :=
      List.mem_filter.mpr ⟨h2, by simp⟩
    rcases hf : (m :: rest).filter (fun x => x.1 = s) with _ | ⟨x, _ | ⟨y, t⟩⟩
    · rw [hf] at hm1; cases hm1
    · rw [hf] at hm1 hm2
      have e1 : (s, sel₁, v₁) = x := by simpa using hm1
      have e2 : (s, sel₂, v₂) = x := by simpa using hm2
      exact absurd (congrArg (fun z => z.2.1) (e1.trans e2.symm)) (by simpa using hne)
    · rw [hf]


/-- The selectors of the collected matches form a sublist of the store
keys, hence inherit the store's key uniqueness. -/
theorem getMatches_sels_sublist (store : List (String × Value))
    (parts : List String) :
    ((getMatches store parts).map (fun x => x.2.1)).Sublist
      (store.map (fun e => e.1)) := by
  induction store with
  | nil => simp [getMatches]
  | cons e rest ih =>
    simp only [getMatches, List.filterMap_cons, List.map_cons]
    rcases hm : matchSel e.1 parts (0, 0) false with _ | r
    · exact (ih).cons e.1
    · rcases r with sp | ⟨l, sp⟩
      · simpa using (ih).cons₂ e.1
      · exact (ih).cons e.1

/-- Strict-top resolution at the store-lookup level, with key uniqueness
inherited from the store. -/
theorem getAbs_strict_top (store : List (String × Value)) (parts : List String)
    (s₀ : Nat × Nat) (sel₀ : String) (v₀ : Value)
    (hnd : (store.map (fun e => e.1)).Nodup)
    (hmem : (s₀, sel₀, v₀) ∈ getMatches store parts)
    (hstr : ∀ x ∈ getMatches store parts, x.2.1 ≠ sel₀ → specGT s₀ x.1 = true) :
    getAbs store parts = .ok v₀ :=
  resolveMatches_strict _ _ _ _ _
    (List.Nodup.sublist (getMatches_sels_sublist store parts) hnd) hmem hstr

/-- Lookup of a single-piece path on a root view with a non-reserved final
segment reduces to the store lookup of the split parts. -/
theorem getItem_root_nonreserved (store : List (String × Value))
    (pstr last : String)
    (hval : checkValidPaths [pstr] = true)
    (hlast : (splitToPartsValid [pstr]).getLast? = some last)
    (hn : last ≠ "name") (hl : last ≠ "location") :
    getItem ⟨store, []⟩ [pstr] = getAbs store (splitToPartsValid [pstr]) := by
  show getItemF (1 + 1) ⟨store, []⟩ [pstr] = _
  simp only [getItemF, List.nil_append, hval, if_true, hlast]
  simp [hn, hl]

/-- C1.  Specificity monotonicity: when selectors A and B both match a
concrete path, A with specificity (e1, q1) and B with (e2, q2), and
(e1, q1) is lexicographically greater (more exact matches, or equally
many exact matches and more pattern matches), then looking the path up
in the store holding exactly A and B returns A's value, whichever order
the two entries were inserted in. -/
theorem C1_specificity_monotonicity
    (A B : String) (a b : Value) (pstr last : String) (e1 q1 e2 q2 : Nat)
    (hval : checkValidPaths [pstr] = true)
    (hlast : (splitToPartsValid [pstr]).getLast? = some last)
    (hn : last ≠ "name") (hl : last ≠ "location")
    (hA : matchSel A (splitToPartsValid [pstr]) (0, 0) false = some (.spec (e1, q1)))
    (hB : matchSel B (splitToPartsValid [pstr]) (0, 0) false = some (.spec (e2, q2)))
    (hgt : e2 < e1 ∨ (e1 = e2 ∧ q2 < q1)) :
    getItem ⟨[(A, a), (B, b)], []⟩ [pstr] = .ok a ∧
    getItem ⟨[(B, b), (A, a)], []⟩ [pstr] = .ok a := by
  have hGT : specGT (e1, q1) (e2, q2) = true := (specGT_iff _ _).mpr (by simpa using hgt)
  have hABne : A ≠ B := by
    intro he
    rw [he, hB] at hA
    have hinj : (e2, q2) = (e1, q1) := MatchRes.spec.inj (Option.some.inj hA)
    exact specGT_ne hGT hinj.symm
  have hmA : getMatches [(A, a), (B, b)] (splitToPartsValid [pstr]) =
      [((e1, q1), A, a), ((e2, q2), B, b)] := by
    simp only [getMatches, List.filterMap_cons, List.filterMap_nil, hA, hB]
  have hmB : getMatches [(B, b), (A, a)] (splitToPartsValid [pstr]) =
      [((e2, q2), B, b), ((e1, q1), A, a)] := by
    simp only [getMatches, List.filterMap_cons, List.filterMap_nil, hA, hB]
  constructor
  · rw [getItem_root_nonreserved _ _ _ hval hlast hn hl]
    apply getAbs_strict_top _ _ (e1, q1) A a (by simp [hABne])
    · rw [hmA]; exact List.mem_cons_self _ _
    · rw [hmA]
      intro x hx hxs
      rcases List.mem_cons.mp hx with rfl | hx2
      · exact absurd rfl hxs
      · rcases List.mem_cons.mp hx2 with rfl | hx3
        · exact hGT
        · cases hx3
  · rw [getItem_root_nonreserved _ _ _ hval hlast hn hl]
    apply getAbs_strict_top _ _ (e1, q1) A a (by simp [Ne.symm hABne])
    · rw [hmB]; exact List.mem_cons_of_mem _ (List.mem_cons_self _ _)
    · rw [hmB]
      intro x hx hxs
      rcases List.mem_cons.mp hx with rfl | hx2
      · exact hGT
      · rcases List.mem_cons.mp hx2 with rfl | hx3
        · exact absurd rfl hxs
        · cases hx3

/-- Witness for C1 at the spec's own scenario: the exact selector beats
the wildcard selector on path a/b in both insertion orders. -/
theorem C1_witness :
    getItem ⟨[("a/b", Value.base 1), ("//b", Value.base 2)], []⟩ ["a/b"] =
      .ok (Value.base 1) ∧
    getItem ⟨[("//b", Value.base 2), ("a/b", Value.base 1)], []⟩ ["a/b"] =
      .ok (Value.base 1) :=
  C1_specificity_monotonicity "a/b" "//b" (Value.base 1) (Value.base 2) "a/b" "b"
    2 0 1 0 (by decide) (by decide) (by decide) (by decide) (by decide) (by decide)
    (by omega)

/-- C2.  Ambiguity detection at the lookup core: a match strictly more
specific than every other-selector match is returned; two matches with
distinct selectors tying at the greatest specificity make the lookup
fail with AmbiguousSpecificity naming the resolved absolute path and
exactly the selectors matching at the top specificity — insertion order
never silently resolves the tie. -/
theorem C2_ambiguity_detection (store : List (String × Value))
    (parts : List String) (hnd : (store.map (fun e => e.1)).Nodup) :
    (∀ s₀ sel₀ v₀, (s₀, sel₀, v₀) ∈ getMatches store parts →
      (∀ x ∈ getMatches store parts, x.2.1 ≠ sel₀ → specGT s₀ x.1 = true) →
      getAbs store parts = .ok v₀) ∧
    (∀ s sel₁ v₁ sel₂ v₂, (s, sel₁, v₁) ∈ getMatches store parts →
      (s, sel₂, v₂) ∈ getMatches store parts → sel₁ ≠ sel₂ →
      (∀ x ∈ getMatches store parts, specGT x.1 s = false) →
      ∃ L, getAbs store parts = .error (.ambiguous L (joinValid parts)) ∧
        sel₁ ∈ L ∧ sel₂ ∈ L ∧
        (∀ t ∈ L, ∃ w, (s, t, w) ∈ getMatches store parts) ∧
        (∀ sel v, (s, sel, v) ∈ getMatches store parts → sel ∈ L)) := by
  constructor
  · intro s₀ sel₀ v₀ hmem hstr
    exact getAbs_strict_top store parts s₀ sel₀ v₀ hnd hmem hstr
  · intro s sel₁ v₁ sel₂ v₂ h1 h2 hne htop
    refine ⟨((getMatches store parts).filter (fun x => x.1 = s)).map
      (fun x => x.2.1), ?_, ?_, ?_, ?_, ?_⟩
    · exact resolveMatches_tie _ _ _ _ _ _ _ h1 h2 hne htop
    · exact List.mem_map.mpr ⟨(s, sel₁, v₁),
        List.mem_filter.mpr ⟨h1, by simp⟩, rfl⟩
    · exact List.mem_map.mpr ⟨(s, sel₂, v₂),
        List.mem_filter.mpr ⟨h2, by simp⟩, rfl⟩
    · intro t ht
      rcases List.mem_map.mp ht with ⟨x, hxf, hxe⟩
      have hx := List.mem_filter.mp hxf
      have hxs : x.1 = s := by simpa using hx.2
      exact ⟨x.2.2, by rw [← hxe, ← hxs]; exact hx.1⟩
    · intro sel v hmem
      exact List.mem_map.mpr ⟨(s, sel, v), List.mem_filter.mpr ⟨hmem, by simp⟩, rfl⟩

/-- Witness for C2: the exact selector a/b and the wildcard selector
matching a/b with the same full-exact specificity produce the ambiguity
error naming both selectors and the path, while a strictly stronger
match is returned. -/
theorem C2_witness :
    (∃ L, getAbs [("a/b", Value.base 1), ("a//b", Value.base 2)] ["a", "b"] =
        .error (.ambiguous L "a/b") ∧ "a/b" ∈ L ∧ "a//b" ∈ L) ∧
    getAbs [("a/b", Value.base 1), ("//b", Value.base 2)] ["a", "b"] =
      .ok (Value.base 1) := by
  have hgm : getMatches [("a/b", Value.base 1), ("a//b", Value.base 2)] ["a", "b"] =
      [((2, 0), "a/b", Value.base 1), ((2, 0), "a//b", Value.base 2)] := rfl
  have hgm2 : getMatches [("a/b", Value.base 1), ("//b", Value.base 2)] ["a", "b"] =
      [((2, 0), "a/b", Value.base 1), ((1, 0), "//b", Value.base 2)] := rfl
  constructor
  · obtain ⟨L, hE, h1, h2, _⟩ := (C2_ambiguity_detection
      [("a/b", Value.base 1), ("a//b", Value.base 2)] ["a", "b"] (by decide)).2
      (2, 0) "a/b" (Value.base 1) "a//b" (Value.base 2)
      (by rw [hgm]; exact List.mem_cons_self _ _)
      (by rw [hgm]; exact List.mem_cons_of_mem _ (List.mem_cons_self _ _))
      (by decide)
      (by rw [hgm]
          intro x hx
          rcases List.mem_cons.mp hx with rfl | hx2
          · exact specGT_irrefl _
          · rcases List.mem_cons.mp hx2 with rfl | hx3
            · exact specGT_irrefl _
            · cases hx3)
    exact ⟨L, by rw [show joinValid ["a", "b"] = "a/b" from rfl] at hE; exact hE, h1, h2⟩
  · exact (C2_ambiguity_detection
      [("a/b", Value.base 1), ("//b", Value.base 2)] ["a", "b"] (by decide)).1
      (2, 0) "a/b" (Value.base 1)
      (by rw [hgm2]; exact List.mem_cons_self _ _)
      (by rw [hgm2]
          intro x hx hxs
          rcases List.mem_cons.mp hx with rfl | hx2
          · exact absurd rfl hxs
          · rcases List.mem_cons.mp hx2 with rfl | hx3
            · decide
            · cases hx3)

/-! ## Wildcard matching lemmas -/

theorem findSkip_some (pat : String) (p : List String) (k : Nat)
    (h : findSkip pat p = some k) :
    ∃ hk : k < p.length, segFullMatch pat (p.get ⟨k, hk⟩) = true ∧
      ∀ j (hj : j < p.length), j < k → segFullMatch pat (p.get ⟨j, hj⟩) = false := by
  induction p generalizing k with
  | nil => cases h
  | cons x xs ih =>
    by_cases hm : segFullMatch pat x = true
    · simp only [findSkip, hm, if_true] at h
      obtain rfl : (0 : Nat) = k := Option.some.inj h
      exact ⟨Nat.succ_pos _, hm, fun j hj hlt => absurd hlt (Nat.not_lt_zero j)⟩
    · have hm2 : segFullMatch pat x = false := by
        revert hm; cases segFullMatch pat x <;> simp
      simp only [findSkip, hm2, Bool.false_eq_true, if_false,
        Option.map_eq_some'] at h
      rcases h with ⟨k2, hk2, hke⟩
      subst hke
      rcases ih k2 hk2 with ⟨hlt, hmat, hmin⟩
      refine ⟨by simp; omega, ?_, ?_⟩
      · exact hmat
      · intro j hj hjk
        match j, hj with
        | 0, _ => exact hm2
        | j2 + 1, hj =>
          have hj2 : j2 < xs.length := by simp at hj; omega
          exact hmin j2 hj2 (by omega)

theorem findSkip_none (pat : String) (p : List String)
    (h : findSkip pat p = none) :
    ∀ j (hj : j < p.length), segFullMatch pat (p.get ⟨j, hj⟩) = false := by
  induction p with
  | nil => intro j hj; cases hj
  | cons x xs ih =>
    intro j hj
    by_cases hm : segFullMatch pat x = true
    · simp [findSkip, hm] at h
    · have hm2 : segFullMatch pat x = false := by
        revert hm; cases segFullMatch pat x <;> simp
      simp only [findSkip, hm2, Bool.false_eq_true, if_false,
        Option.map_eq_none'] at h
      match j, hj with
      | 0, _ => exact hm2
      | j2 + 1, hj =>
        have hj2 : j2 < xs.length := by simp at hj; omega
        exact ih h j2 hj2

/-- C3 (amended).  Wildcard minimal-span commitment: when the selector
head is the wildcard, the matcher finds the smallest skip count whose
path segment is fully matched by the next selector segment and commits
to it — the overall result is exactly the match of the remaining
selector against the path from that segment on, with no backtracking
into larger skip counts; when no path segment matches the next selector
segment the non-prefix match fails. -/
theorem C3_wildcard_minimal_commit (t : String) (rest p : List String)
    (spec : Nat × Nat) (_hnw : t ≠ "//") :
    (∀ k, findSkip t p = some k →
      (∃ hk : k < p.length, segFullMatch t (p.get ⟨k, hk⟩) = true ∧
        ∀ j (hj : j < p.length), j < k → segFullMatch t (p.get ⟨j, hj⟩) = false) ∧
      matchRec ("//" :: t :: rest) p spec false =
        matchRec (t :: rest) (p.drop k) spec false) ∧
    (findSkip t p = none →
      (∀ j (hj : j < p.length), segFullMatch t (p.get ⟨j, hj⟩) = false) ∧
      matchRec ("//" :: t :: rest) p spec false = none) := by
  constructor
  · intro k h
    refine ⟨findSkip_some t p k h, ?_⟩
    match p, h with
    | ph :: pt, h =>
      simp only [matchRec, if_pos rfl, h]
      simp
  · intro h
    refine ⟨findSkip_none t p h, ?_⟩
    match p, h with
    | [], _ => simp [matchRec]
    | ph :: pt, h =>
      simp only [matchRec, if_pos rfl, h]
      simp

/-- Witness for the amended C3 at the spec's own scenario: against
a/x/b/x, the wildcard of selector double-slash-x commits to the leftmost
x (skip count 1), and the whole match is the committed one. -/
theorem C3_witness :
    (∃ hk : 1 < (["a", "x", "b", "x"] : List String).length,
      segFullMatch "x" ((["a", "x", "b", "x"] : List String).get ⟨1, hk⟩) = true ∧
      ∀ j (hj : j < (["a", "x", "b", "x"] : List String).length), j < 1 →
        segFullMatch "x" ((["a", "x", "b", "x"] : List String).get ⟨j, hj⟩) = false) ∧
    matchRec ["//", "x"] ["a", "x", "b", "x"] (0, 0) false =
      matchRec ["x"] ((["a", "x", "b", "x"] : List String).drop 1) (0, 0) false :=
  (C3_wildcard_minimal_commit "x" [] ["a", "x", "b", "x"] (0, 0)
    (by decide)).1 1 (by decide)

/-- Counterexample to C3 as stated: for the selector with wildcard head
followed by x and the path a/x/b/x there is a skip count (three) at
which x fully matches the path segment and the remaining selector
matches the remaining path, yet the non-prefix match returns no match —
because the wildcard committed to the leftmost x (skip count 1), after
which a path suffix b/x remains unconsumed.  So match success is not
equivalent to the existence of a successful skip count, and the claim's
example selector does not match this path at all. -/
theorem C3_counterexample :
    matchRec ["//", "x"] ["a", "x", "b", "x"] (0, 0) false = none ∧
    segFullMatch "x" "x" = true ∧
    matchRec ["x"] ((["a", "x", "b", "x"] : List String).drop 3) (0, 0) false =
      some (.spec (1, 0)) := by
  refine ⟨rfl, rfl, rfl⟩

/-! ## C4: view isolation through reserved keys -/

/-- C4.  Failing input for view isolation: for every store, the subview
at location m resolves the relative path a/location by delegating to a
view whose location is the view's location prepended twice (subconf
re-prepends the location to the already absolute prefix), giving m/m/a,
while the root view resolves m/a/location to m/a.  The reserved-key
results bypass the store, so the divergence holds for every store
state. -/
theorem C4_divergence (store : List (String × Value)) :
    getItem ⟨store, ["m"]⟩ ["a/location"] = .ok (.str "m/m/a") ∧
    getItem ⟨store, []⟩ ["m/a/location"] = .ok (.str "m/a") ∧
    subconf ⟨store, []⟩ ["m"] = .ok ⟨store, ["m"]⟩ ∧
    Value.str "m/m/a" ≠ Value.str "m/a" := by
  refine ⟨rfl, rfl, rfl, ?_⟩
  intro h
  exact absurd (Value.str.inj h) (by decide)

/-! ## C7: selector-part validation -/

/-- C7.  The last-single-slash check of check_valid_selectors uses
re.match with a start-anchored regex, so only two-character parts
consisting of one non-slash character and a slash are rejected: the part
ab/ ends with a single slash yet validation accepts it, against the
function's own documentation.  The other three checks (and the
two-character instance of the trailing-slash check) behave as
documented. -/
theorem C7_divergence :
    checkValidSelectors ["ab/"] = true ∧
    checkValidSelectors ["a/"] = false ∧
    checkValidSelectors [""] = false ∧
    checkValidSelectors ["/ab"] = false ∧
    checkValidSelectors ["a///b"] = false ∧
    checkValidSelectors ["ab", "c/d", "a//b"] = true := by decide

/-! ## C9: iteration over location-restricted entries -/

/-- C9.  The entry iterator unpacks the prefix-match result before the
is-not-None guard, so a stored selector that fails to prefix-match the
view's location makes iteration crash (TypeError, modelled as none)
instead of being skipped; with all entries prefix-matching, iteration
yields the suffix-rejoined entries. -/
theorem C9_divergence :
    iterEntries [("x", Value.base 0)] ["z"] = none ∧
    iterEntries [("b", Value.base 1), ("x", Value.base 0)] ["x"] = none ∧
    iterEntries [("x/y", Value.base 0), ("//q", Value.base 1)] ["x"] =
      some [("y", Value.base 0), ("//q", Value.base 1)] := by
  refine ⟨rfl, rfl, rfl⟩

/-! ## C10: defaulting lookup -/

/-- C10.  The defaulting lookup returns the default exactly on KeyError
(no selector matched): an ok result is passed through, an ambiguity
error propagates unchanged, a path-validation error propagates
unchanged, and the default can only be produced from a KeyError failure
or an ok result already equal to the default. -/
theorem C10_default_selectivity (c : ConfState) (path : List String)
    (dflt : Value) :
    (∀ s, getItem c path = .error (.keyNotFound s) →
      confGet c path dflt = .ok dflt) ∧
    (∀ v, getItem c path = .ok v → confGet c path dflt = .ok v) ∧
    (∀ L s, getItem c path = .error (.ambiguous L s) →
      confGet c path dflt = .error (.ambiguous L s)) ∧
    (getItem c path = .error .invalidPath →
      confGet c path dflt = .error .invalidPath) ∧
    (confGet c path dflt = .ok dflt →
      getItem c path = .ok dflt ∨
        ∃ s, getItem c path = .error (.keyNotFound s)) := by
  refine ⟨?_, ?_, ?_, ?_, ?_⟩
  · intro s h; simp [confGet, h]
  · intro v h; simp [confGet, h]
  · intro L s h; simp [confGet, h]
  · intro h; simp [confGet, h]
  · intro h
    rcases hg : getItem c path with e | v
    · rcases e with _ | _ | s | ⟨L, s⟩ | _ | _ | _ | _ <;> rw [confGet, hg] at h
      · simp at h
      · simp at h
      · exact Or.inr ⟨s, rfl⟩
      · simp at h
      · simp at h
      · simp at h
      · simp at h
      · simp at h
    · left
      rw [confGet, hg] at h
      have hv : v = dflt := by simpa using h
      rw [hv]

/-- Witness for C10: an unmatched path produces the default, while an
ambiguous lookup never does. -/
theorem C10_witness :
    confGet ⟨[], []⟩ ["a"] (Value.base 0) = .ok (Value.base 0) ∧
    confGet ⟨[("a/b", Value.base 1), ("a//b", Value.base 2)], []⟩ ["a/b"]
      (Value.base 0) = .error (.ambiguous ["a/b", "a//b"] "a/b") :=
  ⟨(C10_default_selectivity ⟨[], []⟩ ["a"] (Value.base 0)).1 "a" rfl,
   (C10_default_selectivity ⟨[("a/b", Value.base 1), ("a//b", Value.base 2)], []⟩
     ["a/b"] (Value.base 0)).2.2.1 ["a/b", "a//b"] "a/b" rfl⟩

/-! ## Grammar lemmas: identifiers, splitting, joining, collapsing -/

theorem isIdentFirst_isIdentRest {c : Char} (h : isIdentFirst c = true) :
    isIdentRest c = true := by
  simp [isIdentRest, h]

theorem isIdent_chars {s : String} (h : isIdent s = true) :
    ∀ c ∈ s.data, isIdentRest c = true := by
  unfold isIdent at h
  rcases hd : s.data with _ | ⟨c, r⟩
  · rw [hd] at h; cases h
  · rw [hd] at h
    simp only [Bool.and_eq_true, List.all_eq_true] at h
    intro x hx
    rcases List.mem_cons.mp hx with rfl | hx2
    · exact isIdentFirst_isIdentRest h.1
    · exact h.2 x hx2

theorem isIdentRest_ne_slash {c : Char} (h : isIdentRest c = true) : c ≠ '/' := by
  intro he; subst he; exact absurd h (by decide)

theorem isIdentRest_ne_star {c : Char} (h : isIdentRest c = true) : c ≠ '*' := by
  intro he; subst he; exact absurd h (by decide)

theorem isIdent_ne_empty {s : String} (h : isIdent s = true) : s ≠ "" := by
  intro he; rw [he] at h; exact absurd h (by decide)

theorem isIdent_no_slash {s : String} (h : isIdent s = true) :
    ∀ c ∈ s.data, c ≠ '/' :=
  fun c hc => isIdentRest_ne_slash (isIdent_chars h c hc)

theorem isIdent_no_star {s : String} (h : isIdent s = true) :
    ∀ c ∈ s.data, c ≠ '*' :=
  fun c hc => isIdentRest_ne_star (isIdent_chars h c hc)

theorem isIdent_ne_wild {s : String} (h : isIdent s = true) : s ≠ "//" := by
  intro he; rw [he] at h; exact absurd h (by decide)

theorem splitSlashAux_no_slash (acc l : List Char) (h : ∀ c ∈ l, c ≠ '/') :
    splitSlashAux acc l = [String.mk (acc.reverse ++ l)] := by
  induction l generalizing acc with
  | nil => simp [splitSlashAux]
  | cons c r ih =>
    have hc : c ≠ '/' := h c (List.mem_cons_self c r)
    rw [splitSlashAux, if_neg hc, ih (c :: acc) (fun x hx => h x (List.mem_cons_of_mem c hx))]
    simp

theorem splitSlash_no_slash (s : String) (h : ∀ c ∈ s.data, c ≠ '/') :
    splitSlash s = [s] := by
  rw [splitSlash, splitSlashAux_no_slash [] s.data h]
  simp

theorem splitSlashAux_append_slash (l1 l2 : List Char)
    (h : ∀ c ∈ l1, c ≠ '/') :
    ∀ acc, splitSlashAux acc (l1 ++ '/' :: l2) =
      String.mk (acc.reverse ++ l1) :: splitSlashAux [] l2 := by
  induction l1 with
  | nil =>
    intro acc
    simp [splitSlashAux]
  | cons c r ih =>
    intro acc
    have hc : c ≠ '/' := h c (List.mem_cons_self c r)
    rw [List.cons_append, splitSlashAux, if_neg hc,
      ih (fun x hx => h x (List.mem_cons_of_mem c hx)) (c :: acc)]
    simp

theorem splitSlash_joinSlash (parts : List String) (hne : parts ≠ [])
    (h : ∀ p ∈ parts, ∀ c ∈ p.data, c ≠ '/') :
    splitSlash (joinSlash parts) = parts := by
  induction parts with
  | nil => exact absurd rfl hne
  | cons p rest ih =>
    rcases rest with _ | ⟨q, rest2⟩
    · exact splitSlash_no_slash p (h p (List.mem_cons_self p []))
    · have hdata : (joinSlash (p :: q :: rest2)).data =
          p.data ++ '/' :: (joinSlash (q :: rest2)).data := by
        show (p ++ "/" ++ joinSlash (q :: rest2)).data = _
        simp [String.data_append]
      rw [splitSlash, hdata,
        splitSlashAux_append_slash _ _ (h p (List.mem_cons_self p _)) []]
      have hmk : String.mk (List.reverse [] ++ p.data) = p := rfl
      rw [hmk]
      have htail : splitSlashAux [] (joinSlash (q :: rest2)).data =
          q :: rest2 :=
        ih (by simp) (fun x hx => h x (List.mem_cons_of_mem p hx))
      rw [htail]

theorem wildAccum_nonempty (l : List String) :
    ∀ acc, (∀ p ∈ l, p ≠ "") → wildAccum acc l = acc.reverse ++ l := by
  induction l with
  | nil => intro acc _; simp [wildAccum]
  | cons p rest ih =>
    intro acc h
    have hp : p ≠ "" := h p (List.mem_cons_self p rest)
    rw [wildAccum, if_pos hp, ih (p :: acc) (fun x hx => h x (List.mem_cons_of_mem p hx))]
    simp

/-- Splitting a list of slash-free nonempty parts is the identity. -/
theorem splitToPartsValid_idents (parts : List String)
    (h : ∀ p ∈ parts, p ≠ "" ∧ ∀ c ∈ p.data, c ≠ '/') :
    splitToPartsValid parts = parts := by
  have hfm : parts.flatMap splitSlash = parts := by
    induction parts with
    | nil => simp
    | cons p rest ih =>
      rw [List.flatMap_cons, splitSlash_no_slash p (h p (List.mem_cons_self p rest)).2,
        ih (fun x hx => h x (List.mem_cons_of_mem p hx))]
      rfl
  rw [splitToPartsValid, hfm, wildAccum_nonempty parts [] (fun p hp => (h p hp).1)]
  rfl

/-- Splitting the slash-join of slash-free nonempty parts recovers them. -/
theorem splitToPartsValid_joinSlash (parts : List String) (hne : parts ≠ [])
    (h : ∀ p ∈ parts, p ≠ "" ∧ ∀ c ∈ p.data, c ≠ '/') :
    splitToPartsValid [joinSlash parts] = parts := by
  rw [splitToPartsValid]
  have hfm : ([joinSlash parts] : List String).flatMap splitSlash = parts := by
    rw [List.flatMap_cons, List.flatMap_nil,
      splitSlash_joinSlash parts hne (fun p hp => (h p hp).2)]
    simp
  rw [hfm, wildAccum_nonempty parts [] (fun p hp => (h p hp).1)]
  rfl

theorem noDS_append (l1 l2 : List Char) (h1 : ∀ c ∈ l1, c ≠ '/')
    (h2 : noDS l2 = true) : noDS (l1 ++ l2) = true := by
  induction l1 with
  | nil => simpa using h2
  | cons c r ih =>
    have hc : c ≠ '/' := h1 c (List.mem_cons_self c r)
    have hrec := ih (fun x hx => h1 x (List.mem_cons_of_mem c hx))
    rw [List.cons_append]
    rcases he : r ++ l2 with _ | ⟨d, t⟩
    · simp [noDS]
    · rw [he] at hrec
      rw [noDS]
      simp [hrec, hc]

theorem noDS_of_no_slash (l : List Char) (h : ∀ c ∈ l, c ≠ '/') :
    noDS l = true := by
  have := noDS_append l [] h rfl
  simpa using this

/-- The slash-join of slash-free nonempty parts has no adjacent double
slash, and starts with a non-slash character. -/
theorem joinSlash_noDS (parts : List String) (hne : parts ≠ [])
    (h : ∀ p ∈ parts, p ≠ "" ∧ ∀ c ∈ p.data, c ≠ '/') :
    noDS (joinSlash parts).data = true ∧
      ∃ c cs, (joinSlash parts).data = c :: cs ∧ c ≠ '/' := by
  induction parts with
  | nil => exact absurd rfl hne
  | cons p rest ih =>
    have hp := h p (List.mem_cons_self p rest)
    rcases hpd : p.data with _ | ⟨c, cs⟩
    · exact absurd (String.ext (by simp [hpd])) hp.1
    · have hc : c ≠ '/' := hp.2 c (by rw [hpd]; exact List.mem_cons_self c cs)
      rcases rest with _ | ⟨q, rest2⟩
      · have h1 : joinSlash [p] = p := rfl
        rw [h1]
        exact ⟨noDS_of_no_slash p.data hp.2, c, cs, hpd, hc⟩
      · have hdata : (joinSlash (p :: q :: rest2)).data =
            p.data ++ '/' :: (joinSlash (q :: rest2)).data := by
          show (p ++ "/" ++ joinSlash (q :: rest2)).data = _
          simp [String.data_append]
        rcases ih (by simp) (fun x hx => h x (List.mem_cons_of_mem p hx)) with
          ⟨hnds, d, ds, hds, hd⟩
        have hslash : noDS ('/' :: (joinSlash (q :: rest2)).data) = true := by
          rw [hds, noDS]
          rw [hds] at hnds
          simp [hnds, hd]
        refine ⟨?_, c, cs ++ '/' :: (joinSlash (q :: rest2)).data, ?_, hc⟩
        · rw [hdata]
          exact noDS_append _ _ hp.2 hslash
        · rw [hdata, hpd]
          simp

theorem collapseGo_id (l : List Char) (h : noDS l = true) :
    collapseGo 0 l = l ∧ (∀ c cs, l = c :: cs → c ≠ '/' → collapseGo 1 l = l) := by
  induction l with
  | nil => exact ⟨rfl, fun c cs hc => by cases hc⟩
  | cons a r ih =>
    have hr : noDS r = true := by
      rcases r with _ | ⟨b, t⟩
      · rfl
      · rw [noDS] at h
        exact (Bool.and_eq_true _ _).mp h |>.2
    have hih := ih hr
    by_cases ha : a = '/'
    · subst ha
      constructor
      · rw [collapseGo, if_pos rfl, if_neg (by omega)]
        rcases r with _ | ⟨b, t⟩
        · rfl
        · have hb : b ≠ '/' := by
            rw [noDS] at h
            intro he
            rw [he] at h
            simp at h
          rw [hih.2 b t rfl hb]
      · intro c cs hc hcs
        rw [List.cons.injEq] at hc
        exact absurd hc.1.symm hcs
    · refine ⟨?_, fun c cs hc hcs => ?_⟩
      · rw [collapseGo, if_neg ha]
        rcases r with _ | ⟨b, t⟩
        · rfl
        · have hb2 : noDS (b :: t) = true := hr
          rw [(ih hb2).1]
      · rw [collapseGo, if_neg ha]
        rcases r with _ | ⟨b, t⟩
        · rfl
        · rw [(ih hr).1]

/-- Joining slash-free nonempty parts never produces a slash run, so the
collapse step is the identity and joinValid is the plain slash-join. -/
theorem joinValid_idents (parts : List String)
    (h : ∀ p ∈ parts, p ≠ "" ∧ ∀ c ∈ p.data, c ≠ '/') :
    joinValid parts = joinSlash parts := by
  rcases hp : parts with _ | ⟨p, rest⟩
  · rfl
  · rw [← hp]
    have hnds := (joinSlash_noDS parts (by rw [hp]; simp) h).1
    rw [joinValid, collapseSlashes, (collapseGo_id _ hnds).1]

theorem noDS_pair_absent (l1 l2 : List Char) :
    noDS (l1 ++ '/' :: '/' :: l2) = false := by
  induction l1 with
  | nil => rfl
  | cons c r ihl =>
    rcases hre : r ++ '/' :: '/' :: l2 with _ | ⟨d, t2⟩
    · exact absurd hre (by simp)
    · rw [List.cons_append, hre, noDS]
      rw [hre] at ihl
      simp [ihl]

theorem endsWithDoubleSlash_noDS (s : String) (h : noDS s.data = true) :
    endsWithDoubleSlash s = false := by
  rw [endsWithDoubleSlash]
  rcases hrev : s.data.reverse with _ | ⟨a, _ | ⟨b, t⟩⟩
  · rfl
  · rfl
  · by_cases hab : a = '/' ∧ b = '/'
    · exfalso
      have hsd : s.data = t.reverse ++ '/' :: '/' :: [] := by
        have h2 := congrArg List.reverse hrev
        rw [List.reverse_reverse] at h2
        rw [h2, hab.1, hab.2]
        simp
      rw [hsd, noDS_pair_absent] at h
      cases h
    · rcases Decidable.not_and_iff_or_not.mp hab with ha | hb
      · simp [ha]
      · simp [hb]

/-! ## Matcher lemmas -/

theorem reFullAux_self (l : List Char) : ∀ f, (∀ c ∈ l, c ≠ '*') →
    2 * l.length < f → reFullAux f l l = true := by
  induction l with
  | nil =>
    intro f _ hf
    match f, hf with
    | g + 1, _ => rfl
  | cons c r ih =>
    intro f hstar hf
    match f, hf with
    | g + 1, hf =>
      have hmc : matchChar c c = true := by simp [matchChar]
      rcases r with _ | ⟨d, t⟩
      · have hg : 0 < g := by simp at hf; omega
        match g, hg with
        | g2 + 1, _ => simp [reFullAux, hmc]
      · have hd : d ≠ '*' := hstar d (List.mem_cons_of_mem c (List.mem_cons_self d t))
        rw [reFullAux, if_neg hd]
        rw [hmc, Bool.true_and]
        exact ih g (fun x hx => hstar x (List.mem_cons_of_mem c hx))
          (by simp at hf ⊢; omega)

/-- A star-free segment pattern fully matches itself; in particular every
identifier does. -/
theorem segFullMatch_self (p : String) (h : ∀ c ∈ p.data, c ≠ '*') :
    segFullMatch p p = true := by
  rw [segFullMatch, reFull]
  exact reFullAux_self p.data _ h (by omega)

/-- A selector consisting of the path's own segments (no wildcards,
every segment fully matching itself) matches the path exactly, scoring
one exact count per segment. -/
theorem matchRec_self (parts : List String) :
    ∀ a b, (∀ q ∈ parts, q ≠ "//" ∧ segFullMatch q q = true) →
    matchRec parts parts (a, b) false = some (.spec (a + parts.length, b)) := by
  induction parts with
  | nil => intro a b _; rfl
  | cons p rest ih =>
    intro a b h
    have hp := h p (List.mem_cons_self p rest)
    simp only [matchRec]
    rw [if_neg hp.1, if_pos hp.2]
    simp only [eq_self_iff_true, if_true]
    rw [ih (a + 1) b (fun q hq => h q (List.mem_cons_of_mem p hq))]
    have hlen : a + 1 + rest.length = a + (p :: rest).length := by
      simp [List.length_cons]; omega
    rw [hlen]

/-- Specificity bound: a successful non-prefix match accumulates at most
one counter increment per path segment on top of the base. -/
theorem matchRec_spec_bound (sel : List String) :
    ∀ path a b e q, matchRec sel path (a, b) false = some (.spec (e, q)) →
      e + q ≤ a + b + path.length := by
  induction sel with
  | nil =>
    intro path a b e q h
    rcases path with _ | ⟨ph, pt⟩
    · simp only [matchRec] at h
      simp only [Bool.false_eq_true, if_false, List.isEmpty_nil, if_true,
        Option.some.injEq, MatchRes.spec.injEq, Prod.mk.injEq] at h
      omega
    · simp only [matchRec] at h
      cases h
  | cons sh st ih =>
    intro path a b e q h
    rcases path with _ | ⟨ph, pt⟩
    · simp only [matchRec] at h
      simp at h
    · by_cases hw : sh = "//"
      · subst hw
        rcases st with _ | ⟨th, tt⟩
        · have hred : matchRec ["//"] (ph :: pt) (a, b) false = none := rfl
          rw [hred] at h
          cases h
        · have hred : matchRec ("//" :: th :: tt) (ph :: pt) (a, b) false =
              (match findSkip th (ph :: pt) with
               | some k => matchRec (th :: tt) ((ph :: pt).drop k) (a, b) false
               | none => none) := rfl
          rw [hred] at h
          rcases hfs : findSkip th (ph :: pt) with _ | k
          · rw [hfs] at h
            cases h
          · rw [hfs] at h
            have hb := ih ((ph :: pt).drop k) a b e q h
            have hlen : ((ph :: pt).drop k).length ≤ (ph :: pt).length := by
              rw [List.length_drop]
              omega
            omega
      · simp only [matchRec] at h
        rw [if_neg hw] at h
        by_cases hm : segFullMatch sh ph = true
        · rw [if_pos hm] at h
          by_cases he : sh = ph
          · rw [if_pos he] at h
            have hb := ih pt (a + 1) b e q h
            simp only [List.length_cons]
            omega
          · rw [if_neg he] at h
            have hb := ih pt a (b + 1) e q h
            simp only [List.length_cons]
            omega
        · rw [if_neg hm] at h
          cases h

/-! ## Validation transfer lemmas -/

theorem tripleSlash_empty_piece (l : List Char) :
    hasTripleSlash l = true → ∀ acc, "" ∈ splitSlashAux acc l := by
  induction l with
  | nil => intro h; cases h
  | cons a r ih =>
    intro h acc
    rcases r with _ | ⟨b, r2⟩
    · cases h
    · rcases r2 with _ | ⟨c2, r3⟩
      · cases h
      · rw [hasTripleSlash] at h
        rcases (Bool.or_eq_true _ _).mp h with h3 | hrec
        · simp only [Bool.and_eq_true, decide_eq_true_eq] at h3
          obtain ⟨⟨ha, hb⟩, hc⟩ := h3
          subst ha; subst hb; subst hc
          rw [splitSlashAux, if_pos rfl]
          apply List.mem_cons_of_mem
          rw [splitSlashAux, if_pos rfl]
          exact List.mem_cons_self _ _
        · by_cases haa : a = '/'
          · rw [splitSlashAux, if_pos haa]
            exact List.mem_cons_of_mem _ (ih hrec [])
          · rw [splitSlashAux, if_neg haa]
            exact ih hrec (a :: acc)

theorem validPath_checks (pp : String) (h : isValidPathPart pp = true) :
    startsSingleSlash pp = false ∧ lastSingleSlashRe pp = false ∧
      hasTripleSlash pp.data = false := by
  have hni : "" ∉ splitSlash pp := by
    intro hmem
    rw [isValidPathPart, List.all_eq_true] at h
    exact absurd (h "" hmem) (by decide)
  refine ⟨?_, ?_, ?_⟩
  · by_contra hc
    have hss : startsSingleSlash pp = true := by
      revert hc; cases startsSingleSlash pp <;> simp
    rw [startsSingleSlash] at hss
    rcases hd : pp.data with _ | ⟨a, _ | ⟨b, t⟩⟩ <;> rw [hd] at hss
    · cases hss
    · cases hss
    · simp only [Bool.and_eq_true, decide_eq_true_eq] at hss
      apply hni
      rw [splitSlash, hd, splitSlashAux, if_pos hss.1]
      exact List.mem_cons_self _ _
  · by_contra hc
    have hss : lastSingleSlashRe pp = true := by
      revert hc; cases lastSingleSlashRe pp <;> simp
    rw [lastSingleSlashRe] at hss
    rcases hd : pp.data with _ | ⟨a, _ | ⟨b, _ | ⟨c2, t⟩⟩⟩ <;> rw [hd] at hss
    · cases hss
    · cases hss
    · simp only [Bool.and_eq_true, decide_eq_true_eq] at hss
      apply hni
      rw [splitSlash, hd, splitSlashAux, if_neg hss.1, splitSlashAux, if_pos hss.2]
      apply List.mem_cons_of_mem
      exact List.mem_cons_self _ _
    · cases hss
  · by_contra hc
    have hss : hasTripleSlash pp.data = true := by
      revert hc; cases hasTripleSlash pp.data <;> simp
    exact hni (tripleSlash_empty_piece pp.data hss [])

/-- Parts valid as paths are valid as selectors. -/
theorem checkValidPaths_selectors (parts : List String)
    (h : checkValidPaths parts = true) : checkValidSelectors parts = true := by
  rw [checkValidPaths, List.all_eq_true] at h
  rw [checkValidSelectors, List.all_eq_true]
  intro pp hpp
  have hp := h pp hpp
  simp only [Bool.and_eq_true, decide_eq_true_eq] at hp
  obtain ⟨h1, h2, h3⟩ := validPath_checks pp hp.2
  simp [hp.1, h1, h2, h3]

/-- Splitting valid path parts gives the flat list of their slash-split
pieces, all of them identifiers. -/
theorem splitToPartsValid_of_valid (parts : List String)
    (h : checkValidPaths parts = true) :
    splitToPartsValid parts = parts.flatMap splitSlash ∧
      ∀ q ∈ splitToPartsValid parts, isIdent q = true := by
  have htemp : ∀ q ∈ parts.flatMap splitSlash, isIdent q = true := by
    intro q hq
    rcases List.mem_flatMap.mp hq with ⟨p, hp, hq2⟩
    rw [checkValidPaths, List.all_eq_true] at h
    have hpv := h p hp
    simp only [Bool.and_eq_true, decide_eq_true_eq] at hpv
    rw [isValidPathPart, List.all_eq_true] at hpv
    exact hpv.2 q hq2
  have hid : splitToPartsValid parts = parts.flatMap splitSlash := by
    rw [splitToPartsValid,
      wildAccum_nonempty _ [] (fun p hp => isIdent_ne_empty (htemp p hp))]
    rfl
  exact ⟨hid, by rw [hid]; exact htemp⟩

/-! ## Store-update lemmas -/

theorem storeSet_mem_self (store : List (String × Value)) (k : String) (v : Value) :
    (k, v) ∈ storeSet store k v := by
  rw [storeSet]
  by_cases h : store.any (fun e => e.1 = k) = true
  · rw [if_pos h]
    rcases List.any_eq_true.mp h with ⟨e, he, hek⟩
    simp only [decide_eq_true_eq] at hek
    exact List.mem_map.mpr ⟨e, he, by simp [hek]⟩
  · rw [if_neg h]
    exact List.mem_append.mpr (Or.inr (List.mem_cons_self _ _))

theorem storeSet_mem (store : List (String × Value)) (k : String) (v : Value) :
    ∀ x ∈ storeSet store k v, x = (k, v) ∨ (x ∈ store ∧ x.1 ≠ k) := by
  intro x hx
  rw [storeSet] at hx
  by_cases h : store.any (fun e => e.1 = k) = true
  · rw [if_pos h] at hx
    rcases List.mem_map.mp hx with ⟨e, he, hex⟩
    by_cases hek : e.1 = k
    · left
      rw [← hex, if_pos hek]
    · right
      rw [if_neg hek] at hex
      rw [← hex]
      exact ⟨he, hek⟩
  · rw [if_neg h] at hx
    rcases List.mem_append.mp hx with hx2 | hx2
    · right
      refine ⟨hx2, fun he => h ?_⟩
      exact List.any_eq_true.mpr ⟨x, hx2, by simp [he]⟩
    · left
      simpa using hx2

theorem storeSet_keys_nodup (store : List (String × Value)) (k : String)
    (v : Value) (h : (store.map (fun e => e.1)).Nodup) :
    ((storeSet store k v).map (fun e => e.1)).Nodup := by
  rw [storeSet]
  by_cases ha : store.any (fun e => e.1 = k) = true
  · rw [if_pos ha]
    have hmm : (store.map (fun e => if e.1 = k then (k, v) else e)).map
        (fun e => e.1) = store.map (fun e => e.1) := by
      rw [List.map_map]
      apply List.map_congr_left
      intro e _
      by_cases hek : e.1 = k
      · simp [hek]
      · simp [hek]
    rw [hmm]
    exact h
  · rw [if_neg ha, List.map_append]
    have hk : k ∉ store.map (fun e => e.1) := by
      intro hm
      rcases List.mem_map.mp hm with ⟨e, he, hek⟩
      exact ha (List.any_eq_true.mpr ⟨e, he, by simp [hek]⟩)
    simp [List.nodup_append, h, hk]

/-! ## C6: reserved keys -/

theorem checkValidPaths_of_idents (parts : List String)
    (h : ∀ p ∈ parts, isIdent p = true) : checkValidPaths parts = true := by
  rw [checkValidPaths, List.all_eq_true]
  intro pp hpp
  have hid := h pp hpp
  simp only [Bool.and_eq_true, decide_eq_true_eq]
  refine ⟨isIdent_ne_empty hid, ?_⟩
  rw [isValidPathPart, splitSlash_no_slash pp (isIdent_no_slash hid)]
  simp [hid]

theorem splitToPartsValid_ident_id (parts : List String)
    (h : ∀ p ∈ parts, isIdent p = true) : splitToPartsValid parts = parts :=
  splitToPartsValid_idents parts
    (fun p hp => ⟨isIdent_ne_empty (h p hp), isIdent_no_slash (h p hp)⟩)

/-- C6.  Reserved keys are computed, never stored: set on a (valid)
selector whose final segment is name or location fails with the
reserved-key error before touching the store (so the store is
unchanged); looking up name returns the last location segment and fails
on the empty location (the root has no name); looking up location
returns the slash-joined location.  Both lookups are stated for an
arbitrary store and never consult it, so a stored selector matching the
same absolute path cannot participate. -/
theorem C6_reserved_keys (store : List (String × Value)) (loc : List String)
    (hloc : ∀ p ∈ loc, isIdent p = true) :
    (∀ selPieces v last, checkValidSelectors (loc ++ selPieces) = true →
      (splitToPartsValid (loc ++ selPieces)).getLast? = some last →
      (last = "name" ∨ last = "location") →
      setItem store loc selPieces v = .error .reservedSet) ∧
    getItem ⟨store, loc⟩ ["name"] =
      (match loc.getLast? with
       | some n => .ok (.str n)
       | none => .error .indexError) ∧
    getItem ⟨store, loc⟩ ["location"] = .ok (.str (joinValid loc)) := by
  have hname : ∀ p ∈ loc ++ ["name"], isIdent p = true := by
    intro p hp
    rcases List.mem_append.mp hp with h1 | h2
    · exact hloc p h1
    · rw [List.mem_singleton.mp h2]; decide
  have hlocn : ∀ p ∈ loc ++ ["location"], isIdent p = true := by
    intro p hp
    rcases List.mem_append.mp hp with h1 | h2
    · exact hloc p h1
    · rw [List.mem_singleton.mp h2]; decide
  refine ⟨?_, ?_, ?_⟩
  · intro selPieces v last hval hlast hres
    simp only [setItem, hval, if_true]
    rw [hlast]
    rcases hres with rfl | rfl <;> simp
  · show getItemF (1 + 1) ⟨store, loc⟩ ["name"] = _
    simp only [getItemF, checkValidPaths_of_idents _ hname, if_true,
      splitToPartsValid_ident_id _ hname, List.getLast?_concat]
    have hlen : (loc ++ ["name"]).length = 1 + loc.length := by
      simp [Nat.add_comm]
    simp [hlen, specialLookup]
  · show getItemF (1 + 1) ⟨store, loc⟩ ["location"] = _
    simp only [getItemF, checkValidPaths_of_idents _ hlocn, if_true,
      splitToPartsValid_ident_id _ hlocn, List.getLast?_concat]
    have hlen : (loc ++ ["location"]).length = 1 + loc.length := by
      simp [Nat.add_comm]
    simp [hlen, specialLookup]

/-- Witness for C6 on the view at location m/a whose store also holds an
exact selector for the absolute path m/a/name: setting name (and a
nested location selector) fails with the reserved error, name returns
the view's leaf a (not the stored value), location returns m/a, and the
root view (empty location) has no name. -/
theorem C6_witness :
    setItem [("m/a/name", Value.base 5)] ["m", "a"] ["name"] (Value.base 9) =
      .error .reservedSet ∧
    setItem [("m/a/name", Value.base 5)] ["m", "a"] ["b/location"] (Value.base 9) =
      .error .reservedSet ∧
    getItem ⟨[("m/a/name", Value.base 5)], ["m", "a"]⟩ ["name"] =
      .ok (.str "a") ∧
    getItem ⟨[("m/a/name", Value.base 5)], ["m", "a"]⟩ ["location"] =
      .ok (.str "m/a") ∧
    getItem ⟨[("m/a/name", Value.base 5)], []⟩ ["name"] = .error .indexError := by
  have h1 := C6_reserved_keys [("m/a/name", Value.base 5)] ["m", "a"] (by decide)
  have h2 := C6_reserved_keys [("m/a/name", Value.base 5)] [] (by decide)
  refine ⟨?_, ?_, ?_, ?_, ?_⟩
  · exact h1.1 ["name"] (Value.base 9) "name" (by decide) (by decide) (Or.inl rfl)
  · exact h1.1 ["b/location"] (Value.base 9) "location" (by decide) (by decide)
      (Or.inr rfl)
  · rw [h1.2.1]
    rfl
  · rw [h1.2.2]
    rfl
  · rw [h2.2.1]
    rfl

/-! ## C8: splicing a located nested configuration -/

/-- Counterexample to C8 as stated: splicing a nested configuration that
carries the non-empty location m neither fails nor inserts nothing — the
operation succeeds and inserts the location-restricted entry, re-keyed
under the target selector with the selector suffix beyond the location. -/
theorem C8_counterexample :
    setItem [] [] ["s"] (.conf [("m/a", Value.base 7)] ["m"]) =
      .ok [("s/a", Value.base 7)] := rfl

/-- C8 (amended).  Splicing performs no located-configuration check: for
identifier segments m, a, sel and a non-configuration value v, setting
sel to a nested configuration at location m holding the entry m/a
succeeds for every prior store and inserts the suffix-re-keyed entry
under sel/a. -/
theorem C8_located_splice_trims (store : List (String × Value))
    (m a sel : String) (v : Value)
    (hm : isIdent m = true) (ha : isIdent a = true) (hs : isIdent sel = true)
    (hnc : nonConf v = true)
    (han : a ≠ "name") (hal : a ≠ "location")
    (hsn : sel ≠ "name") (hsl : sel ≠ "location") :
    setItem store [] [sel] (.conf [(m ++ "/" ++ a, v)] [m]) =
      .ok (storeSet store (sel ++ "/" ++ a) v) := by
  have hone : ∀ p ∈ [sel], isIdent p = true := by
    intro p hp; rw [List.mem_singleton.mp hp]; exact hs
  have htwo : ∀ p ∈ [sel, a], isIdent p = true := by
    intro p hp
    rcases List.mem_cons.mp hp with rfl | hp2
    · exact hs
    · rw [List.mem_singleton.mp hp2]; exact ha
  have hma : ∀ p ∈ [m, a], isIdent p = true := by
    intro p hp
    rcases List.mem_cons.mp hp with rfl | hp2
    · exact hm
    · rw [List.mem_singleton.mp hp2]; exact ha
  have hvs1 : checkValidSelectors ([] ++ [sel]) = true :=
    checkValidPaths_selectors _ (checkValidPaths_of_idents _ hone)
  have hsp1 : splitToPartsValid ([] ++ [sel]) = [sel] :=
    splitToPartsValid_ident_id _ hone
  have hjv1 : joinValid [sel] = sel := by
    rw [joinValid_idents _ (fun p hp =>
      ⟨isIdent_ne_empty (hone p hp), isIdent_no_slash (hone p hp)⟩)]
    rfl
  have hsplit : splitToPartsValid [m ++ "/" ++ a] = [m, a] := by
    rw [show m ++ "/" ++ a = joinSlash [m, a] from rfl]
    exact splitToPartsValid_joinSlash [m, a] (by simp)
      (fun p hp => ⟨isIdent_ne_empty (hma p hp), isIdent_no_slash (hma p hp)⟩)
  have hmm : matchSel (m ++ "/" ++ a) [m] (0, 0) true =
      some (.rem [a] (1, 0)) := by
    rw [matchSel, hsplit]
    simp only [matchRec]
    rw [if_neg (isIdent_ne_wild hm),
      if_pos (segFullMatch_self m (isIdent_no_star hm))]
    simp
  have hja : joinValid [a] = a := by
    rw [joinValid_idents _ (fun p hp => by
      rw [List.mem_singleton.mp hp]
      exact ⟨isIdent_ne_empty ha, isIdent_no_slash ha⟩)]
    rfl
  have hvs2 : checkValidSelectors ([] ++ [sel, a]) = true :=
    checkValidPaths_selectors _ (checkValidPaths_of_idents _ htwo)
  have hsp2 : splitToPartsValid ([] ++ [sel, a]) = [sel, a] :=
    splitToPartsValid_ident_id _ htwo
  have hjv2 : joinValid [sel, a] = sel ++ "/" ++ a := by
    rw [joinValid_idents _ (fun p hp =>
      ⟨isIdent_ne_empty (htwo p hp), isIdent_no_slash (htwo p hp)⟩)]
    rfl
  have hnodds : endsWithDoubleSlash (sel ++ "/" ++ a) = false := by
    have hnds := (joinSlash_noDS [sel, a] (by simp) (fun p hp =>
      ⟨isIdent_ne_empty (htwo p hp), isIdent_no_slash (htwo p hp)⟩)).1
    have hje : joinSlash [sel, a] = sel ++ "/" ++ a := rfl
    rw [hje] at hnds
    exact endsWithDoubleSlash_noDS _ hnds
  have hinner : setItem store [] [sel, a] v =
      .ok (storeSet store (sel ++ "/" ++ a) v) := by
    simp only [setItem, hvs2, if_true, hsp2, hjv2,
      show ([sel, a] : List String).getLast? = some a from rfl]
    rw [if_neg (by simp [han, hal])]
    rcases v with n | t | ⟨cs, cl⟩
    · show (if endsWithDoubleSlash (sel ++ "/" ++ a) = true
          then (Except.error Err.wildcardEnd : Except Err (List (String × Value)))
          else Except.ok (storeSet store (sel ++ "/" ++ a) (Value.base n))) =
        Except.ok (storeSet store (sel ++ "/" ++ a) (Value.base n))
      exact if_neg (by simp [hnodds])
    · show (if endsWithDoubleSlash (sel ++ "/" ++ a) = true
          then (Except.error Err.wildcardEnd : Except Err (List (String × Value)))
          else Except.ok (storeSet store (sel ++ "/" ++ a) (Value.str t))) =
        Except.ok (storeSet store (sel ++ "/" ++ a) (Value.str t))
      exact if_neg (by simp [hnodds])
    · exact absurd hnc (by simp [nonConf])
  simp only [setItem, hvs1, if_true, hsp1, hjv1,
    show ([sel] : List String).getLast? = some sel from rfl]
  rw [if_neg (by simp [hsn, hsl])]
  simp only [spliceGo, hmm, hja]
  rw [hinner]

/-- Witness for the amended C8: splicing the located configuration with
entry m/a at location m under selector s inserts s/a into a nonempty
prior store and raises no error. -/
theorem C8_witness :
    setItem [("q", Value.base 3)] [] ["s"] (.conf [("m/a", Value.base 7)] ["m"]) =
      .ok [("q", Value.base 3), ("s/a", Value.base 7)] :=
  C8_located_splice_trims [("q", Value.base 3)] "m" "a" "s" (Value.base 7)
    (by decide) (by decide) (by decide) (by decide) (by decide) (by decide)
    (by decide) (by decide)

/-! ## C5: round trip -/

theorem getMatches_mem (store : List (String × Value)) (parts : List String)
    (e : String × Value) (sp : Nat × Nat) (he : e ∈ store)
    (hm : matchSel e.1 parts (0, 0) false = some (.spec sp)) :
    (sp, e.1, e.2) ∈ getMatches store parts := by
  rw [getMatches]
  exact List.mem_filterMap.mpr ⟨e, he, by rw [hm]⟩

theorem getMatches_mem_inv (store : List (String × Value)) (parts : List String)
    (x : (Nat × Nat) × String × Value) (hx : x ∈ getMatches store parts) :
    ∃ e ∈ store, x = (x.1, e.1, e.2) ∧
      matchSel e.1 parts (0, 0) false = some (.spec x.1) := by
  rw [getMatches] at hx
  rcases List.mem_filterMap.mp hx with ⟨e, he, hfe⟩
  rcases hms : matchSel e.1 parts (0, 0) false with _ | r
  · rw [hms] at hfe; cases hfe
  · rcases r with sp | ⟨l, sp⟩
    · rw [hms] at hfe
      have hxe : (sp, e.1, e.2) = x := Option.some.inj hfe
      refine ⟨e, he, ?_, ?_⟩
      · rw [← hxe]
      · rw [hms, ← hxe]
    · rw [hms] at hfe; cases hfe

/-- C5 (amended).  Round trip: on a view whose absolute path parts are
valid, not reserved-final, for a non-configuration value, provided no
other stored selector matches the absolute path with the full-exact
specificity, set followed by get returns the value just set. -/
theorem C5_round_trip (store : List (String × Value)) (loc : List String)
    (pstr last : String) (v : Value)
    (hnd : (store.map (fun e => e.1)).Nodup)
    (hval : checkValidPaths (loc ++ [pstr]) = true)
    (hlast : (splitToPartsValid (loc ++ [pstr])).getLast? = some last)
    (hn : last ≠ "name") (hl : last ≠ "location")
    (hnc : nonConf v = true)
    (hcomp : ∀ e ∈ store, e.1 ≠ joinValid (splitToPartsValid (loc ++ [pstr])) →
      matchSel e.1 (splitToPartsValid (loc ++ [pstr])) (0, 0) false ≠
        some (.spec ((splitToPartsValid (loc ++ [pstr])).length, 0))) :
    setItem store loc [pstr] v =
      .ok (storeSet store (joinValid (splitToPartsValid (loc ++ [pstr]))) v) ∧
    getItem ⟨storeSet store (joinValid (splitToPartsValid (loc ++ [pstr]))) v,
      loc⟩ [pstr] = .ok v := by
  obtain ⟨hflat, hids⟩ := splitToPartsValid_of_valid _ hval
  have hparts : ∀ p ∈ splitToPartsValid (loc ++ [pstr]),
      p ≠ "" ∧ ∀ c ∈ p.data, c ≠ '/' :=
    fun p hp => ⟨isIdent_ne_empty (hids p hp), isIdent_no_slash (hids p hp)⟩
  have hne : splitToPartsValid (loc ++ [pstr]) ≠ [] := by
    intro he
    rw [he] at hlast
    cases hlast
  have hjoin : joinValid (splitToPartsValid (loc ++ [pstr])) =
      joinSlash (splitToPartsValid (loc ++ [pstr])) := joinValid_idents _ hparts
  have hvsel : checkValidSelectors (loc ++ [pstr]) = true :=
    checkValidPaths_selectors _ hval
  have hnds : endsWithDoubleSlash
      (joinValid (splitToPartsValid (loc ++ [pstr]))) = false := by
    rw [hjoin]
    exact endsWithDoubleSlash_noDS _ (joinSlash_noDS _ hne hparts).1
  have hresplit : splitToPartsValid
      [joinValid (splitToPartsValid (loc ++ [pstr]))] =
      splitToPartsValid (loc ++ [pstr]) := by
    rw [hjoin]
    exact splitToPartsValid_joinSlash _ hne hparts
  have hselfmatch : matchSel (joinValid (splitToPartsValid (loc ++ [pstr])))
      (splitToPartsValid (loc ++ [pstr])) (0, 0) false =
      some (.spec ((splitToPartsValid (loc ++ [pstr])).length, 0)) := by
    rw [matchSel, hresplit]
    rw [matchRec_self _ 0 0 (fun q hq =>
      ⟨isIdent_ne_wild (hids q hq),
       segFullMatch_self q (isIdent_no_star (hids q hq))⟩)]
    rw [Nat.zero_add]
  have hset : setItem store loc [pstr] v =
      .ok (storeSet store (joinValid (splitToPartsValid (loc ++ [pstr]))) v) := by
    simp only [setItem, hvsel, if_true, hlast]
    rw [if_neg (by simp [hn, hl])]
    rcases v with n | t | ⟨cs, cl⟩
    · show (if endsWithDoubleSlash (joinValid (splitToPartsValid (loc ++ [pstr]))) = true
          then (Except.error Err.wildcardEnd : Except Err (List (String × Value)))
          else Except.ok (storeSet store
            (joinValid (splitToPartsValid (loc ++ [pstr]))) (Value.base n))) = _
      rw [if_neg (by simp [hnds])]
    · show (if endsWithDoubleSlash (joinValid (splitToPartsValid (loc ++ [pstr]))) = true
          then (Except.error Err.wildcardEnd : Except Err (List (String × Value)))
          else Except.ok (storeSet store
            (joinValid (splitToPartsValid (loc ++ [pstr]))) (Value.str t))) = _
      rw [if_neg (by simp [hnds])]
    · exact absurd hnc (by simp [nonConf])
  refine ⟨hset, ?_⟩
  show getItemF (1 + 1) _ [pstr] = _
  simp only [getItemF, hval, if_true, hlast]
  rw [if_neg (by simp [hn, hl])]
  apply getAbs_strict_top _ _ ((splitToPartsValid (loc ++ [pstr])).length, 0)
    (joinValid (splitToPartsValid (loc ++ [pstr]))) v
  · exact storeSet_keys_nodup store _ v hnd
  · exact getMatches_mem _ _ _ _ (storeSet_mem_self store _ v) hselfmatch
  · intro x hx hxs
    rcases getMatches_mem_inv _ _ x hx with ⟨e, he, hxe, hms⟩
    rcases storeSet_mem store _ v e he with heq | ⟨hes, hek⟩
    · exfalso
      apply hxs
      rw [hxe, heq]
    · have hbound : x.1.1 + x.1.2 ≤ (splitToPartsValid (loc ++ [pstr])).length := by
        have hb := matchRec_spec_bound (splitToPartsValid [e.1])
          (splitToPartsValid (loc ++ [pstr])) 0 0 x.1.1 x.1.2 (by
            rw [← matchSel]
            rw [show ((x.1.1, x.1.2) : Nat × Nat) = x.1 from rfl]
            exact hms)
        simpa using hb
      have hnefull : x.1 ≠ ((splitToPartsValid (loc ++ [pstr])).length, 0) := by
        intro hfull
        apply hcomp e hes
        · rw [hxe] at hxs
          exact fun hh => hxs (by simp [hh])
        · rw [← hfull]
          exact hms
      rw [specGT_iff]
      rcases x with ⟨⟨e1, q1⟩, xsel, xv⟩
      simp only at hbound ⊢
      have hc2 : ¬(e1 = (splitToPartsValid (loc ++ [pstr])).length ∧ q1 = 0) := by
        intro hcc
        exact hnefull (by simp [hcc.1, hcc.2])
      by_cases he1 : e1 = (splitToPartsValid (loc ++ [pstr])).length
      · right
        refine ⟨he1.symm, ?_⟩
        have : q1 ≠ 0 := fun hq => hc2 ⟨he1, hq⟩
        omega
      · left
        omega

/-- Counterexample to C5 as stated: the round trip is not unconditional.
With the prior store holding the selector a-wildcard-b, setting path a/b
succeeds, but the following get fails with AmbiguousSpecificity because
both selectors match a/b with the same full-exact specificity; and for
the valid path name, set itself fails on the reserved key, so set
followed by get cannot return the value either. -/
theorem C5_counterexample :
    setItem [("a//b", Value.base 1)] [] ["a/b"] (Value.base 2) =
      .ok [("a//b", Value.base 1), ("a/b", Value.base 2)] ∧
    getItem ⟨[("a//b", Value.base 1), ("a/b", Value.base 2)], []⟩ ["a/b"] =
      .error (.ambiguous ["a//b", "a/b"] "a/b") ∧
    setItem [] [] ["name"] (Value.base 2) = .error .reservedSet := by
  refine ⟨rfl, rfl, rfl⟩

/-- Witness for the amended C5 with a nonempty unrelated prior store. -/
theorem C5_witness :
    setItem [("x", Value.base 9)] [] ["a/b"] (Value.base 2) =
      .ok (storeSet [("x", Value.base 9)]
        (joinValid (splitToPartsValid ([] ++ ["a/b"]))) (Value.base 2)) ∧
    getItem ⟨storeSet [("x", Value.base 9)]
      (joinValid (splitToPartsValid ([] ++ ["a/b"]))) (Value.base 2), []⟩
      ["a/b"] = .ok (Value.base 2) :=
  C5_round_trip [("x", Value.base 9)] [] "a/b" "b" (Value.base 2)
    (by decide) (by decide) (by decide) (by decide) (by decide) (by decide)
    (by decide)

end Hierarchiconf